import Mathlib

/-!
Verification of the CVIA retrieval-and-ranking engine.

Shallow embedding of the job-search service (`JobSearchService` in
`job-search.service.ts`) and the feedback-weight store
(`SearchMemoryService` in `search-memory.service.ts`).

JavaScript strings are modelled as `String` (lists of Unicode scalar
values); `toLowerCase` and the NFD decomposition are modelled by finite
tables covering the Latin alphabet the repository works with (Spanish
and English text); JS numbers are modelled as `ℚ` (all score constants
and weight increments in the source are exact decimals); `Date.now()`
and network responses are passed in as explicit parameters.
-/

set_option maxHeartbeats 1000000

namespace CVIA

/-- JS `\s` whitespace class (the characters matched by `/\s/`). -/
def isWs (c : Char) : Bool :=
  c = ' ' || (9 ≤ c.toNat && c.toNat ≤ 13) || c.toNat = 0xa0 || c.toNat = 0x1680 ||
  (0x2000 ≤ c.toNat && c.toNat ≤ 0x200a) || c.toNat = 0x2028 || c.toNat = 0x2029 ||
  c.toNat = 0x202f || c.toNat = 0x205f || c.toNat = 0x3000 || c.toNat = 0xfeff

/-- Lower-casing table for `String.prototype.toLowerCase` on the Latin
characters the repository handles (ASCII plus Latin-1). -/
def lowerTable : List (Char × Char) :=
  [('A','a'),('B','b'),('C','c'),('D','d'),('E','e'),('F','f'),('G','g'),('H','h'),
   ('I','i'),('J','j'),('K','k'),('L','l'),('M','m'),('N','n'),('O','o'),('P','p'),
   ('Q','q'),('R','r'),('S','s'),('T','t'),('U','u'),('V','v'),('W','w'),('X','x'),
   ('Y','y'),('Z','z'),
   ('À','à'),('Á','á'),('Â','â'),('Ã','ã'),('Ä','ä'),('Å','å'),('Ç','ç'),
   ('È','è'),('É','é'),('Ê','ê'),('Ë','ë'),('Ì','ì'),('Í','í'),('Î','î'),('Ï','ï'),
   ('Ñ','ñ'),('Ò','ò'),('Ó','ó'),('Ô','ô'),('Õ','õ'),('Ö','ö'),
   ('Ù','ù'),('Ú','ú'),('Û','û'),('Ü','ü'),('Ý','ý')]

/-- Model of `String.prototype.toLowerCase`, character-wise. -/
def jsToLower (c : Char) : Char :=
  ((lowerTable.find? (fun p => p.1 == c)).map Prod.snd).getD c

/-- NFD decomposition table (`String.prototype.normalize('NFD')`) for the
pre-composed Latin letters reachable after lower-casing. -/
def decompTable : List (Char × List Char) :=
  [('à', ['a', '̀']), ('á', ['a', '́']), ('â', ['a', '̂']),
   ('ã', ['a', '̃']), ('ä', ['a', '̈']), ('å', ['a', '̊']),
   ('ç', ['c', '̧']),
   ('è', ['e', '̀']), ('é', ['e', '́']), ('ê', ['e', '̂']),
   ('ë', ['e', '̈']),
   ('ì', ['i', '̀']), ('í', ['i', '́']), ('î', ['i', '̂']),
   ('ï', ['i', '̈']),
   ('ñ', ['n', '̃']),
   ('ò', ['o', '̀']), ('ó', ['o', '́']), ('ô', ['o', '̂']),
   ('õ', ['o', '̃']), ('ö', ['o', '̈']),
   ('ù', ['u', '̀']), ('ú', ['u', '́']), ('û', ['u', '̂']),
   ('ü', ['u', '̈']), ('ý', ['y', '́'])]

/-- Character-wise NFD decomposition. -/
def decomp (c : Char) : List Char :=
  ((decompTable.find? (fun p => p.1 == c)).map Prod.snd).getD [c]

/-- The combining–diacritical range stripped by `replace(/[̀-ͯ]/g, '')`. -/
def combining (c : Char) : Bool :=
  0x300 ≤ c.toNat && c.toNat ≤ 0x36f

/-- Model of `replace(/\s+/g, ' ')`: collapse every maximal whitespace run to
one space. The flag records whether the previous character was whitespace. -/
def collapseGo : Bool → List Char → List Char
  | _, [] => []
  | prevWs, c :: rest =>
    if isWs c then
      if prevWs then collapseGo true rest else ' ' :: collapseGo true rest
    else
      c :: collapseGo false rest

def collapseWs (l : List Char) : List Char := collapseGo false l

/-- Model of `String.prototype.trim` on a character list. -/
def jsTrim (l : List Char) : List Char :=
  (((l.dropWhile isWs).reverse.dropWhile isWs)).reverse

/-- The character-list core of `normalize` from `job-search.service.ts` /
`search-memory.service.ts`: lower-case, NFD-decompose, strip combining
diacritics, collapse whitespace, trim. -/
def normChars (l : List Char) : List Char :=
  jsTrim (collapseWs (((l.map jsToLower).flatMap decomp).filter (fun c => !combining c)))

/-- `normalize(value)` from the source (both copies are identical):
`value.toLowerCase().normalize('NFD').replace(/[̀-ͯ]/g, '').replace(/\s+/g, ' ').trim()`. -/
def normalize (s : String) : String := ⟨normChars s.data⟩

example : normalize "  Análisis   de  DATOS " = "analisis de datos" := by decide
example : normalize "Práctica Señor " = "practica senor" := by decide

/-- `trim()` on a string. -/
def jsTrimStr (s : String) : String := ⟨jsTrim s.data⟩

/-- `clean(value)` from the source: `value.replace(/\s+/g, ' ').trim()`. -/
def clean (s : String) : String := ⟨jsTrim (collapseWs s.data)⟩

/-- `leadsWith n h` is true when `n` is an initial segment of `h`. -/
def leadsWith : List Char → List Char → Bool
  | [], _ => true
  | _ :: _, [] => false
  | a :: as, b :: bs => a == b && leadsWith as bs

/-- `hasSub h n` is true when `n` occurs contiguously inside `h`. -/
def hasSub (hay needle : List Char) : Bool :=
  leadsWith needle hay ||
    match hay with
    | [] => false
    | _ :: t => hasSub t needle

/-- Model of `String.prototype.includes`. -/
def jsIncludes (s sub : String) : Bool := hasSub s.data sub.data

/-! ### Data model (`job-search.service.ts`) -/

inductive Level
  | intern
  | junior
  | mid
  | senior
deriving DecidableEq, Repr

/-- `ExperienceProfile` from the source. -/
structure ExperienceProfile where
  years : ℚ
  level : Level
  prefersInternships : Bool
  seniorityTerms : List String
deriving DecidableEq, Repr

/-- `MatchedJob` from the source. -/
structure MatchedJob where
  title : String
  company : String
  location : String
  source : String
  url : String
  tags : List String
  score : Int
  publishedAt : String
  publishedTs : Int
deriving DecidableEq, Repr

/-- `JobProviderStatus` from the source. -/
structure JobProviderStatus where
  provider : String
  enabled : Bool
  success : Bool
  jobs : Nat
  error : Option String
deriving DecidableEq, Repr

/-- `JobSearchResult` from the source. -/
structure JobSearchResult where
  jobs : List MatchedJob
  providers : List JobProviderStatus
deriving DecidableEq, Repr

/-! ### Keyword cleaning and country resolution -/

/-- `[...new Set(list)]`: deduplicate keeping the first occurrence. -/
def uniqFirstGo (seen : List String) : List String → List String
  | [] => []
  | x :: rest => if x ∈ seen then uniqFirstGo seen rest else x :: uniqFirstGo (x :: seen) rest

def uniqFirst (l : List String) : List String := uniqFirstGo [] l

def noiseKeywords : List String :=
  ["proyecto", "titulo", "descripcion", "descripci", "club", "deportivo", "intermedio", "2022"]

/-- `cleanKeywords` from the source. -/
def cleanKeywords (keywords : List String) : List String :=
  uniqFirst ((keywords.map normalize).filter
    (fun k => decide (k ≠ "" ∧ 3 ≤ k.length ∧ k ∉ noiseKeywords)))

/-- `enrichKeywordsWithExperience` from the source. -/
def enrichKeywordsWithExperience (keywords : List String)
    (experience : Option ExperienceProfile) : List String :=
  match experience with
  | none => keywords
  | some e => uniqFirst (keywords ++ e.seniorityTerms)

/-- `resolveCountry` from the source. -/
def resolveCountry (country location : Option String) : String :=
  let value := jsTrimStr (country.getD "")
  if value ≠ "" then value
  else
    let locationValue := jsTrimStr (location.getD "")
    if locationValue = "" then "Peru"
    else
      let n := normalize locationValue
      if jsIncludes n "peru" then "Peru"
      else if jsIncludes n "mexico" then "Mexico"
      else if jsIncludes n "argentina" then "Argentina"
      else if jsIncludes n "chile" then "Chile"
      else if jsIncludes n "colombia" then "Colombia"
      else if jsIncludes n "espana" || jsIncludes n "spain" then "Spain"
      else if jsIncludes n "united states" || jsIncludes n "usa" ||
          jsIncludes n "estados unidos" then "United States"
      else "Peru"

/-- `getCountryTokens` from the source. -/
def getCountryTokens (countryText : String) : List String :=
  let n := normalize countryText
  if n = "peru" then ["peru", "lima", "arequipa", "trujillo", "cusco", "piura", "chiclayo"]
  else if n = "mexico" then ["mexico", "cdmx", "guadalajara", "monterrey", "puebla"]
  else if n = "argentina" then ["argentina", "buenos aires", "cordoba", "rosario", "mendoza"]
  else if n = "chile" then ["chile", "santiago", "valparaiso", "concepcion", "vina del mar"]
  else if n = "colombia" then ["colombia", "bogota", "medellin", "cali", "barranquilla"]
  else if n = "spain" ∨ n = "espana" then ["spain", "espana", "madrid", "barcelona", "valencia"]
  else if n = "united states" then
    ["united states", "usa", "us", "new york", "california", "texas", "florida"]
  else [n]

/-- `isJobInCountry` from the source. -/
def isJobInCountry (job : MatchedJob) (countryText cityOrRegion : String) : Bool :=
  let geo := normalize (job.title ++ " " ++ job.location ++ " " ++
    String.intercalate " " job.tags)
  let hasCountry := (getCountryTokens countryText).any (fun t => jsIncludes geo t)
  let cityHit :=
    if cityOrRegion ≠ "" then
      let ct := normalize cityOrRegion
      ct ≠ "" && jsIncludes geo ct
    else false
  if cityHit then true
  else if hasCountry then true
  else if job.source = "RapidAPI" ∨ job.source = "TheirStack" ∨ job.source = "CoreSignal"
    then false
  else true

/-! ### Scoring (`scoreJob` and helpers) -/

/-- `scoreByExperience` from the source. -/
def scoreByExperience (haystack : String) (experience : Option ExperienceProfile) : Int :=
  match experience with
  | none => 0
  | some e =>
    let entryTokens := ["practicante", "practica", "intern", "junior", "trainee", "entry level"]
    let seniorTokens := ["senior", "lead", "manager", "principal", "head"]
    let hasEntry := entryTokens.any (fun t => jsIncludes haystack t)
    let hasSenior := seniorTokens.any (fun t => jsIncludes haystack t)
    if e.prefersInternships then
      if hasEntry then 14 else if hasSenior then -16 else 0
    else if e.level = Level.junior then
      if hasEntry then 8 else if hasSenior then -10 else 0
    else if e.level = Level.senior then
      if hasSenior then 10 else if hasEntry then -8 else 0
    else 0

/-- `getAgeInHours` from the source, with `Date.now()` passed in as `now`;
`none` models `Number.POSITIVE_INFINITY` (unknown publish time). -/
def getAgeInHours (now ts : Int) : Option ℚ :=
  if ts = 0 then none else some (max (((now - ts : Int) : ℚ) / 3600000) 0)

/-- The normalized text a job is matched against in `scoreJob`. -/
def scoreHaystack (job : MatchedJob) : String :=
  normalize (job.title ++ " " ++ job.company ++ " " ++ job.location ++ " " ++
    String.intercalate " " job.tags)

/-- `scoreJob` from the source (`job-search.service.ts`, the 5-argument snapshot
under version control). -/
def scoreJob (job : MatchedJob) (keywords : List String) (countryText cityOrRegion : String)
    (experience : Option ExperienceProfile) (now : Int) : Int :=
  let haystack := scoreHaystack job
  let needle := (keywords.map normalize).filter (fun k => k ≠ "")
  let kwScore : Int := 12 * ((needle.filter (fun k => jsIncludes haystack k)).length : Int)
  let countryScore : Int :=
    if (getCountryTokens countryText).any (fun t => jsIncludes haystack t) then 8 else 0
  let cityScore : Int :=
    if cityOrRegion ≠ "" ∧ normalize cityOrRegion ≠ "" ∧
        jsIncludes haystack (normalize cityOrRegion) = true then 6 else 0
  let recencyScore : Int :=
    match getAgeInHours now job.publishedTs with
    | none => 0
    | some h => if h ≤ 24 then 14 else if h ≤ 72 then 8 else if h ≤ 168 then 4 else 0
  let sourceScore : Int :=
    (if job.source = "RapidAPI" then 6 else 0) +
    (if job.source = "TheirStack" then 6 else 0) +
    (if job.source = "CoreSignal" then 6 else 0)
  kwScore + countryScore + cityScore + recencyScore + sourceScore +
    scoreByExperience haystack experience

/-! ### Deduplication and ordering (`mergeAndDedupe`) -/

/-- `url.split('?')[0]`. -/
def urlBeforeQuery (u : String) : String := ⟨u.data.takeWhile (fun c => c ≠ '?')⟩

/-- The dedup key: `normalize(source + '|' + url.split('?')[0])`. -/
def dedupKey (j : MatchedJob) : String :=
  normalize (j.source ++ "|" ++ urlBeforeQuery j.url)

/-- The `Map`-building loop of `mergeAndDedupe`: skip empty URLs, keep the
first-seen record per key, in insertion order. -/
def dedupFirst : List MatchedJob → List String → List MatchedJob
  | [], _ => []
  | j :: rest, seen =>
    if j.url = "" then dedupFirst rest seen
    else if dedupKey j ∈ seen then dedupFirst rest seen
    else j :: dedupFirst rest (dedupKey j :: seen)

/-- The comparator of `mergeAndDedupe` as a total order test: `a` may come
before `b` when `b.publishedTs - a.publishedTs < 0`, or on a timestamp tie
when `b.score - a.score ≤ 0`. -/
def jobPairLe (a b : MatchedJob) : Bool :=
  decide (b.publishedTs < a.publishedTs ∨
    (b.publishedTs = a.publishedTs ∧ b.score ≤ a.score))

/-- The same ordering as a proposition. -/
def JobOrder (a b : MatchedJob) : Prop :=
  b.publishedTs < a.publishedTs ∨ (b.publishedTs = a.publishedTs ∧ b.score ≤ a.score)

/-- `mergeAndDedupe` from the source: first-seen-wins dedup keyed by
`dedupKey`, then a stable sort by `publishedTs` descending with `score`
descending breaking timestamp ties. -/
def mergeAndDedupe (items : List MatchedJob) : List MatchedJob :=
  (dedupFirst items []).mergeSort jobPairLe

/-- The comparator of the intermediate `ranked` sort: score descending. -/
def scoreLe (a b : MatchedJob) : Bool := decide (b.score ≤ a.score)

/-! ### Portal-search fallback -/

def hexDigit (n : Nat) : Char :=
  ['0','1','2','3','4','5','6','7','8','9','A','B','C','D','E','F'].getD n '0'

/-- UTF-8 bytes of a scalar value. -/
def utf8Bytes (c : Char) : List Nat :=
  let v := c.toNat
  if v < 0x80 then [v]
  else if v < 0x800 then [0xc0 + v / 64, 0x80 + v % 64]
  else if v < 0x10000 then [0xe0 + v / 4096, 0x80 + (v / 64) % 64, 0x80 + v % 64]
  else [0xf0 + v / 262144, 0x80 + (v / 4096) % 64, 0x80 + (v / 64) % 64, 0x80 + v % 64]

/-- The characters `encodeURIComponent` leaves unescaped. -/
def uriUnreserved (c : Char) : Bool :=
  let v := c.toNat
  (65 ≤ v && v ≤ 90) || (97 ≤ v && v ≤ 122) || (48 ≤ v && v ≤ 57) ||
  v = 45 || v = 95 || v = 46 || v = 33 || v = 126 || v = 42 || v = 39 || v = 40 || v = 41

/-- Model of `encodeURIComponent`. -/
def encodeURIComponent (s : String) : String :=
  ⟨s.data.flatMap (fun c =>
    if uriUnreserved c then [c]
    else (utf8Bytes c).flatMap (fun b => ['%', hexDigit (b / 16), hexDigit (b % 16)]))⟩

/-- `buildSourceSearchUrl` from the source. -/
def buildSourceSearchUrl (source keyword countryText cityOrRegion : String) : String :=
  let q := encodeURIComponent keyword
  let location := if cityOrRegion ≠ "" then cityOrRegion ++ ", " ++ countryText else countryText
  let l := encodeURIComponent location
  if source = "LinkedIn" then
    "https://www.linkedin.com/jobs/search/?keywords=" ++ q ++ "&location=" ++ l
  else if source = "Indeed" then
    "https://www.indeed.com/jobs?q=" ++ q ++ "&l=" ++ l
  else if source = "Computrabajo" then
    "https://www.bing.com/search?q=" ++
      encodeURIComponent ("site:computrabajo.com " ++ keyword ++ " " ++ location)
  else if source = "Bumeran" then
    "https://www.bing.com/search?q=" ++
      encodeURIComponent ("site:bumeran.com " ++ keyword ++ " " ++ location)
  else
    "https://www.glassdoor.com/Job/jobs.htm?sc.keyword=" ++ q ++ "&locT=C&locId=1"

/-- `buildPortalSearchFallback` from the source: deterministic
search-on-portal placeholder entries, score 18, timestamp 0. -/
def buildPortalSearchFallback (keywords : List String)
    (countryText cityOrRegion : String) : List MatchedJob :=
  let location := if cityOrRegion ≠ "" then cityOrRegion ++ ", " ++ countryText else countryText
  let seeds := if keywords ≠ [] then keywords.take 20
    else ["practicante", "analista", "asistente", "python"]
  let sources := ["Computrabajo", "Indeed", "Bumeran", "LinkedIn", "Glassdoor"]
  seeds.flatMap (fun seed => sources.map (fun source =>
    { title := "Buscar \"" ++ seed ++ "\" en " ++ source ++ " (" ++ location ++ ")"
      company := source
      location := location
      source := source
      url := buildSourceSearchUrl source seed countryText cityOrRegion
      tags := seed :: seeds.take 4
      score := 18
      publishedAt := "Sin fecha"
      publishedTs := 0 : MatchedJob }))

/-! ### The retrieval pipeline (`searchPublicJobs`)

Network responses are passed in as data: each API provider is described by
its credential and the records its live branch would produce (`none` models
a thrown/failed request or an empty id search, exactly the branches that
report `success:false` with no jobs); each scrape query's parsed records
are given per query. -/

/-- `searchTheirStackJobs`, at the boundary where responses are data: the
disabled branch and the failure branch return no jobs, the success branch
dedupes and truncates to 180 and reports success only when non-empty. -/
def theirStackOutcome (key : String) (live : Option (List MatchedJob)) :
    List MatchedJob × JobProviderStatus :=
  if key = "" then
    ([], ⟨"TheirStack", false, false, 0, some "THEIRSTACK_API_KEY no configurada"⟩)
  else
    match live with
    | none => ([], ⟨"TheirStack", true, false, 0, some "request_failed"⟩)
    | some js =>
      let deduped := (mergeAndDedupe js).take 180
      (deduped, ⟨"TheirStack", true, decide (0 < deduped.length), deduped.length, none⟩)

/-- `searchCoreSignalJobs` at the same boundary (truncates to the
`providerLimit` of 25). -/
def coreSignalOutcome (key : String) (live : Option (List MatchedJob)) :
    List MatchedJob × JobProviderStatus :=
  if key = "" then
    ([], ⟨"CoreSignal", false, false, 0, some "CORESIGNAL_API_KEY no configurada"⟩)
  else
    match live with
    | none => ([], ⟨"CoreSignal", true, false, 0, some "request_failed"⟩)
    | some js =>
      let deduped := (mergeAndDedupe js).take 25
      (deduped, ⟨"CoreSignal", true, decide (0 < deduped.length), deduped.length, none⟩)

/-- The provider-side inputs of one retrieval call. -/
structure ProviderEnv where
  theirStackKey : String
  coreSignalKey : String
  theirStackLive : Option (List MatchedJob)
  coreSignalLive : Option (List MatchedJob)
  byQuery : List (List MatchedJob)
deriving DecidableEq

/-- `searchPublicJobs` from the source: clean and enrich keywords, gather the
provider results, dedupe, country-filter (skipped when it would empty the
result), score and sort by score, truncate to 180, append the deterministic
fallback, dedupe and re-sort, truncate to 250; report per-provider status. -/
def searchPublicJobs (env : ProviderEnv) (now : Int) (keywords : List String)
    (location country _desiredRole : Option String)
    (experience : Option ExperienceProfile) : JobSearchResult :=
  let enrichedKeywords := enrichKeywordsWithExperience (cleanKeywords keywords) experience
  let countryText := resolveCountry country location
  let cityOrRegion := jsTrimStr (location.getD "")
  let ts := theirStackOutcome env.theirStackKey env.theirStackLive
  let cs := coreSignalOutcome env.coreSignalKey env.coreSignalLive
  let scraped := (env.byQuery.map (fun q => q.take 14)).flatten
  let merged := ts.1 ++ cs.1 ++ scraped
  let dedup := mergeAndDedupe merged
  let filtered := dedup.filter (fun job => isJobInCountry job countryText cityOrRegion)
  let base := if filtered ≠ [] then filtered else dedup
  let ranked := ((base.map (fun job =>
    let s := scoreJob job enrichedKeywords countryText cityOrRegion experience now
    { job with score := s })).mergeSort scoreLe).take 180
  let fallback := buildPortalSearchFallback enrichedKeywords countryText cityOrRegion
  let finalJobs := (mergeAndDedupe (ranked ++ fallback)).take 250
  let scrapeStatus : JobProviderStatus :=
    ⟨"Public Scraping", true, decide (0 < scraped.length), scraped.length,
      if 0 < scraped.length then none
      else some "Sin resultados (bloqueo/rate limit del buscador o filtros muy estrictos)"⟩
  ⟨finalJobs, [ts.2, cs.2, scrapeStatus]⟩

/-! ### The feedback-weight store (`search-memory.service.ts`) -/

/-- Lookup in a JS object modelled as an insertion-ordered association list. -/
def aLookup {α : Type} : List (String × α) → String → Option α
  | [], _ => none
  | (k', v) :: rest, k => if k' = k then some v else aLookup rest k

/-- `obj[key] = value`: update in place, or append when the key is new. -/
def aSet {α : Type} : List (String × α) → String → α → List (String × α)
  | [], k, v => [(k, v)]
  | (k', v') :: rest, k, v =>
    if k' = k then (k, v) :: rest else (k', v') :: aSet rest k v

/-- `m[k] || 0`. -/
def getW (m : List (String × ℚ)) (k : String) : ℚ := (aLookup m k).getD 0

/-- `MemoryBucket` from the source. -/
structure MemoryBucket where
  keywordWeights : List (String × ℚ)
  sourceWeights : List (String × ℚ)
  updates : Nat
  updatedAt : String
deriving DecidableEq

/-- The persisted `MemoryDb.buckets` object. -/
abbrev MemoryDb := List (String × MemoryBucket)

/-- `buildBucketKey` from the source:
`(normalize(country) || 'global') + '|' + (normalize(level) || 'unknown')`. -/
def buildBucketKey (country level : String) : String :=
  (if normalize country = "" then "global" else normalize country) ++ "|" ++
  (if normalize level = "" then "unknown" else normalize level)

/-- `getProfile` from the source (empty maps when the bucket is absent). -/
def getProfile (db : MemoryDb) (country level : String) :
    List (String × ℚ) × List (String × ℚ) :=
  match aLookup db (buildBucketKey country level) with
  | none => ([], [])
  | some b => (b.keywordWeights, b.sourceWeights)

/-- The text a keyword is counted against: `normalize(title + ' ' + tags.join(' '))`. -/
def learnHaystack (job : MatchedJob) : String :=
  normalize (job.title ++ " " ++ String.intercalate " " job.tags)

/-- One iteration of the keyword loop of `learnFromResults`. -/
def applyKeyword (topJobs : List MatchedJob) (kw : List (String × ℚ))
    (keyword : String) : List (String × ℚ) :=
  let hits := (topJobs.filter (fun job => jsIncludes (learnHaystack job) keyword)).length
  if 0 < hits then aSet kw keyword (min (getW kw keyword + (hits : ℚ) * (1/5)) 6) else kw

/-- One iteration of the source loop of `learnFromResults` (`p.1` is the rank
index): bonus `max(1.2 - index*0.05, 0.2)`, capped at 8. -/
def applySource (sw : List (String × ℚ)) (p : Nat × MatchedJob) : List (String × ℚ) :=
  let src := normalize p.2.source
  if src = "" then sw
  else aSet sw src (min (getW sw src + max ((6/5 : ℚ) - (p.1 : ℚ) * (1/20)) (1/5)) 8)

/-- `learnFromResults` from the source, acting on the persisted buckets;
`now` stands for `new Date().toISOString()`. -/
def learnFromResults (db : MemoryDb) (country level : String)
    (searchedKeywords : List String) (jobs : List MatchedJob) (now : String) : MemoryDb :=
  if jobs = [] ∨ searchedKeywords = [] then db
  else
    let key := buildBucketKey country level
    let bucket := (aLookup db key).getD ⟨[], [], 0, now⟩
    let topJobs := jobs.take 20
    let normalizedKeywords := (searchedKeywords.map normalize).filter (fun k => k ≠ "")
    let kw := normalizedKeywords.foldl (applyKeyword topJobs) bucket.keywordWeights
    let sw := topJobs.enum.foldl applySource bucket.sourceWeights
    aSet db key ⟨kw, sw, bucket.updates + 1, now⟩

/-- The arguments of one `learnFromResults` call. -/
structure LearnCall where
  country : String
  level : String
  searchedKeywords : List String
  jobs : List MatchedJob
  now : String
deriving DecidableEq

/-- A finite sequence of `learnFromResults` calls. -/
def runLearn (db : MemoryDb) (calls : List LearnCall) : MemoryDb :=
  calls.foldl (fun d c =>
    learnFromResults d c.country c.level c.searchedKeywords c.jobs c.now) db

/-! ### Learning-profile-aware scoring (spec-modelled)

The version of `job-search.service.ts` whose `searchPublicJobs` accepts the
sixth `learningProfile` argument passed by `matchJobsByCv` in
`job.service.ts` is not part of the checked-in sources (only its caller and
an earlier 5-argument snapshot are). The feedback boost is therefore
modelled from the spec. -/

/-- The in-memory shape `getProfile` returns to the ranking engine. -/
structure LearningProfile where
  keywordWeights : List (String × ℚ)
  sourceWeights : List (String × ℚ)
deriving DecidableEq

/-- Modelled from the spec: the feedback boost of §4.6 item 6 — "if a
FeedbackBucket exists for this (country, level), add its learned keyword
weight for each matching keyword and its learned source weight for the
record's provider, both independently capped" (caps 6 and 8, the bucket
caps of §3). The keyword/provider matching reuses the haystack and needle
of `scoreJob`. -/
def feedbackBoost (p : LearningProfile) (job : MatchedJob) (keywords : List String) : ℚ :=
  let haystack := scoreHaystack job
  let needle := (keywords.map normalize).filter (fun k => k ≠ "")
  min ((needle.filter (fun k => jsIncludes haystack k)).foldl
    (fun acc k => acc + getW p.keywordWeights k) 0) 6 +
  min (getW p.sourceWeights (normalize job.source)) 8

/-- Modelled from the spec: the composite score of the learning-aware
retrieval — the checked-in `scoreJob` terms plus the feedback boost when a
bucket profile exists. -/
def scoreJobWithProfile (job : MatchedJob) (keywords : List String)
    (countryText cityOrRegion : String) (experience : Option ExperienceProfile)
    (now : Int) (profile : Option LearningProfile) : ℚ :=
  ((scoreJob job keywords countryText cityOrRegion experience now : Int) : ℚ) +
    match profile with
    | none => 0
    | some p => feedbackBoost p job keywords

/-! ### Idempotence of `normalize` (C9) -/

/-- A character that every stage of `normalize` leaves alone. -/
def goodChar (c : Char) : Prop :=
  jsToLower c = c ∧ decomp c = [c] ∧ combining c = false

theorem lowerTable_snd_stable :
    ∀ p ∈ lowerTable, lowerTable.find? (fun q => q.1 == p.2) = none := by decide

theorem decompTable_out_stable :
    ∀ p ∈ decompTable, ∀ d ∈ p.2,
      combining d = false → jsToLower d = d ∧ decomp d = [d] := by decide

theorem jsToLower_idem (c : Char) : jsToLower (jsToLower c) = jsToLower c := by
  cases h : lowerTable.find? (fun q => q.1 == c) with
  | none => simp only [jsToLower, h, Option.map_none', Option.getD_none]
  | some p =>
    have hmem : p ∈ lowerTable := List.mem_of_find?_eq_some h
    have h2 := lowerTable_snd_stable p hmem
    simp only [jsToLower, h, Option.map_some', Option.getD_some, h2,
      Option.map_none', Option.getD_none]

theorem goodChar_decomp {c d : Char} (hd : d ∈ decomp (jsToLower c))
    (hc : combining d = false) : goodChar d := by
  cases h : decompTable.find? (fun q => q.1 == jsToLower c) with
  | none =>
    rw [decomp, h] at hd
    simp only [Option.map_none', Option.getD_none, List.mem_singleton] at hd
    subst hd
    exact ⟨jsToLower_idem c, by rw [decomp, h]; rfl, hc⟩
  | some p =>
    have hmem : p ∈ decompTable := List.mem_of_find?_eq_some h
    rw [decomp, h] at hd
    simp only [Option.map_some', Option.getD_some] at hd
    have := decompTable_out_stable p hmem d hd hc
    exact ⟨this.1, this.2, hc⟩

theorem goodChar_space : goodChar ' ' := by
  refine ⟨?_, ?_, ?_⟩ <;> decide

/-- Adjacent characters are never both whitespace. -/
def NoWsRun (l : List Char) : Prop :=
  l.Chain' (fun a b => ¬(isWs a = true ∧ isWs b = true))

theorem mem_collapseGo {d : Char} :
    ∀ (b : Bool) (l : List Char), d ∈ collapseGo b l → d = ' ' ∨ d ∈ l := by
  intro b l
  induction l generalizing b with
  | nil => intro h; simp [collapseGo] at h
  | cons c rest ih =>
    intro h
    by_cases hc : isWs c = true
    · by_cases hb : b = true
      · subst hb
        simp only [collapseGo, hc, if_true] at h
        rcases ih true h with h' | h'
        · exact Or.inl h'
        · exact Or.inr (List.mem_cons_of_mem _ h')
      · have hb' : b = false := by revert hb; cases b <;> simp
        subst hb'
        simp only [collapseGo, hc, if_true, if_false, Bool.false_eq_true,
          List.mem_cons] at h
        rcases h with h | h
        · exact Or.inl h
        · rcases ih true h with h' | h'
          · exact Or.inl h'
          · exact Or.inr (List.mem_cons_of_mem _ h')
    · have hc' : isWs c = false := by revert hc; cases isWs c <;> simp
      simp only [collapseGo, hc', Bool.false_eq_true, if_false, List.mem_cons] at h
      rcases h with h | h
      · exact Or.inr (h ▸ List.mem_cons_self _ _)
      · rcases ih false h with h' | h'
        · exact Or.inl h'
        · exact Or.inr (List.mem_cons_of_mem _ h')

theorem ws_collapseGo {d : Char} :
    ∀ (b : Bool) (l : List Char), d ∈ collapseGo b l → isWs d = true → d = ' ' := by
  intro b l
  induction l generalizing b with
  | nil => intro h; simp [collapseGo] at h
  | cons c rest ih =>
    intro h hd
    by_cases hc : isWs c = true
    · by_cases hb : b = true
      · subst hb
        simp only [collapseGo, hc, if_true] at h
        exact ih true h hd
      · have hb' : b = false := by revert hb; cases b <;> simp
        subst hb'
        simp only [collapseGo, hc, if_true, Bool.false_eq_true, if_false,
          List.mem_cons] at h
        rcases h with h | h
        · exact h
        · exact ih true h hd
    · have hc' : isWs c = false := by revert hc; cases isWs c <;> simp
      simp only [collapseGo, hc', Bool.false_eq_true, if_false, List.mem_cons] at h
      rcases h with h | h
      · subst h; rw [hd] at hc'; cases hc'
      · exact ih false h hd

theorem head_collapseGo_true {d : Char} :
    ∀ l : List Char, (collapseGo true l).head? = some d → isWs d = false := by
  intro l
  induction l with
  | nil => intro h; simp [collapseGo] at h
  | cons c rest ih =>
    intro h
    by_cases hc : isWs c = true
    · simp only [collapseGo, hc, if_true] at h
      exact ih h
    · have hc' : isWs c = false := by revert hc; cases isWs c <;> simp
      simp only [collapseGo, hc', Bool.false_eq_true, if_false, List.head?_cons,
        Option.some.injEq] at h
      exact h ▸ hc'

theorem noWsRun_collapseGo : ∀ (l : List Char) (b : Bool), NoWsRun (collapseGo b l) := by
  intro l
  induction l with
  | nil => intro b; simp [collapseGo, NoWsRun]
  | cons c rest ih =>
    intro b
    by_cases hc : isWs c = true
    · cases b with
      | true => simpa only [collapseGo, hc, if_true] using ih true
      | false =>
        simp only [collapseGo, hc, if_true, Bool.false_eq_true, if_false]
        rw [NoWsRun, List.chain'_cons']
        refine ⟨?_, ih true⟩
        intro y hy
        have := head_collapseGo_true (d := y) rest hy
        intro hcon
        rw [this] at hcon
        exact absurd hcon.2 (by simp)
    · have hc' : isWs c = false := by revert hc; cases isWs c <;> simp
      simp only [collapseGo, hc', Bool.false_eq_true, if_false]
      rw [NoWsRun, List.chain'_cons']
      refine ⟨?_, ih false⟩
      intro y _ hcon
      rw [hc'] at hcon
      exact absurd hcon.1 (by simp)

theorem collapseGo_true_of_head {l : List Char}
    (h : ∀ d, l.head? = some d → isWs d = false) :
    collapseGo true l = collapseGo false l := by
  cases l with
  | nil => rfl
  | cons c rest =>
    have hc := h c rfl
    simp only [collapseGo, hc, Bool.false_eq_true, if_false]

theorem collapseGo_eq_self :
    ∀ l : List Char, NoWsRun l → (∀ d ∈ l, isWs d = true → d = ' ') →
      collapseGo false l = l := by
  intro l
  induction l with
  | nil => intro _ _; rfl
  | cons c rest ih =>
    intro hchain hws
    rw [NoWsRun, List.chain'_cons'] at hchain
    by_cases hc : isWs c = true
    · have hcsp : c = ' ' := hws c (List.mem_cons_self _ _) hc
      have hhead : ∀ d, rest.head? = some d → isWs d = false := by
        intro d hd
        have := hchain.1 d hd
        revert this
        by_cases hdw : isWs d = true
        · intro hcon; exact absurd ⟨hc, hdw⟩ hcon
        · intro _; revert hdw; cases isWs d <;> simp
      have hrest : collapseGo true rest = rest := by
        rw [collapseGo_true_of_head hhead]
        exact ih hchain.2 (fun d hd => hws d (List.mem_cons_of_mem _ hd))
      simp only [collapseGo, hc, if_true, Bool.false_eq_true, if_false, hrest, hcsp]
      rw [if_pos (show isWs ' ' = true by decide)]
    · have hc' : isWs c = false := by revert hc; cases isWs c <;> simp
      simp only [collapseGo, hc', Bool.false_eq_true, if_false]
      rw [ih hchain.2 (fun d hd => hws d (List.mem_cons_of_mem _ hd))]

theorem mem_jsTrim {d : Char} {l : List Char} (h : d ∈ jsTrim l) : d ∈ l := by
  rw [jsTrim, List.mem_reverse] at h
  have h1 := (List.dropWhile_sublist isWs (l := (l.dropWhile isWs).reverse)).mem h
  rw [List.mem_reverse] at h1
  exact (List.dropWhile_sublist isWs (l := l)).mem h1

theorem head?_dropWhile_ws {d : Char} :
    ∀ l : List Char, (l.dropWhile isWs).head? = some d → isWs d = false := by
  intro l
  induction l with
  | nil => intro h; simp [List.dropWhile] at h
  | cons c rest ih =>
    intro h
    by_cases hc : isWs c = true
    · rw [List.dropWhile_cons_of_pos hc] at h
      exact ih h
    · have hc' : isWs c = false := by revert hc; cases isWs c <;> simp
      rw [List.dropWhile_cons_of_neg (by simp [hc'])] at h
      simp only [List.head?_cons, Option.some.injEq] at h
      exact h ▸ hc'

theorem getLast?_jsTrim_ws {d : Char} {l : List Char}
    (h : (jsTrim l).getLast? = some d) : isWs d = false := by
  rw [jsTrim, List.getLast?_reverse] at h
  exact head?_dropWhile_ws _ h

theorem head?_jsTrim_ws {d : Char} {l : List Char}
    (h : (jsTrim l).head? = some d) : isWs d = false := by
  rw [jsTrim, List.head?_reverse] at h
  set a := l.dropWhile isWs with ha
  set b := a.reverse.dropWhile isWs with hb
  obtain ⟨t, ht⟩ := List.dropWhile_suffix (l := a.reverse) isWs
  have hbne : b ≠ [] := by
    intro hcon
    rw [hcon] at h
    simp at h
  have h2 : (a.reverse).getLast? = some d := by
    rw [← ht, List.getLast?_append]
    rw [h]
    rfl
  rw [List.getLast?_reverse] at h2
  exact head?_dropWhile_ws _ h2

theorem noWsRun_suffix {l₁ l₂ : List Char} (h : l₁ <:+ l₂) (hc : NoWsRun l₂) :
    NoWsRun l₁ := by
  obtain ⟨t, ht⟩ := h
  rw [NoWsRun, ← ht, List.chain'_append] at hc
  exact hc.2.1

theorem noWsRun_reverse {l : List Char} (h : NoWsRun l) : NoWsRun l.reverse := by
  rw [NoWsRun, List.chain'_reverse]
  rw [NoWsRun] at h
  refine h.imp ?_
  intro a b hab
  intro hcon
  exact hab ⟨hcon.2, hcon.1⟩

theorem noWsRun_jsTrim {l : List Char} (h : NoWsRun l) : NoWsRun (jsTrim l) := by
  rw [jsTrim]
  exact noWsRun_reverse (noWsRun_suffix (List.dropWhile_suffix isWs)
    (noWsRun_reverse (noWsRun_suffix (List.dropWhile_suffix isWs) h)))

theorem dropWhile_eq_self_of_head {l : List Char}
    (h : ∀ d, l.head? = some d → isWs d = false) : l.dropWhile isWs = l := by
  cases l with
  | nil => rfl
  | cons c rest =>
    have := h c rfl
    rw [List.dropWhile_cons_of_neg (by simp [this])]

theorem jsTrim_eq_self {l : List Char}
    (hh : ∀ d, l.head? = some d → isWs d = false)
    (hl : ∀ d, l.getLast? = some d → isWs d = false) : jsTrim l = l := by
  rw [jsTrim, dropWhile_eq_self_of_head hh]
  have : ∀ d, l.reverse.head? = some d → isWs d = false := by
    intro d hd
    rw [List.head?_reverse] at hd
    exact hl d hd
  rw [dropWhile_eq_self_of_head this, List.reverse_reverse]

theorem listMapId {f : Char → Char} :
    ∀ l : List Char, (∀ d ∈ l, f d = d) → l.map f = l := by
  intro l
  induction l with
  | nil => intro _; rfl
  | cons c rest ih =>
    intro h
    rw [List.map_cons, h c (List.mem_cons_self _ _),
      ih (fun d hd => h d (List.mem_cons_of_mem _ hd))]

theorem listFlatMapId {g : Char → List Char} :
    ∀ l : List Char, (∀ d ∈ l, g d = [d]) → l.flatMap g = l := by
  intro l
  induction l with
  | nil => intro _; rfl
  | cons c rest ih =>
    intro h
    rw [List.flatMap_cons, h c (List.mem_cons_self _ _),
      ih (fun d hd => h d (List.mem_cons_of_mem _ hd))]
    rfl

theorem goodChar_normChars {d : Char} {l : List Char} (h : d ∈ normChars l) :
    goodChar d := by
  rw [normChars] at h
  have h1 := mem_jsTrim h
  rcases mem_collapseGo false _ h1 with h2 | h2
  · exact h2 ▸ goodChar_space
  · rw [List.mem_filter] at h2
    have hcomb : combining d = false := by
      have := h2.2
      revert this
      cases combining d <;> simp
    obtain ⟨c, hc, hdc⟩ := List.mem_flatMap.mp h2.1
    obtain ⟨c₀, _, hc₀⟩ := List.mem_map.mp hc
    exact goodChar_decomp (hc₀ ▸ hdc) hcomb

theorem ws_normChars {d : Char} {l : List Char} (h : d ∈ normChars l)
    (hw : isWs d = true) : d = ' ' := by
  rw [normChars] at h
  have h1 := mem_jsTrim h
  exact ws_collapseGo false _ h1 hw

theorem noWsRun_normChars (l : List Char) : NoWsRun (normChars l) := by
  rw [normChars]
  exact noWsRun_jsTrim (noWsRun_collapseGo _ false)

theorem normChars_idem (l : List Char) : normChars (normChars l) = normChars l := by
  set y := normChars l with hy
  have hmap : y.map jsToLower = y :=
    listMapId y (fun d hd => (goodChar_normChars (hy ▸ hd)).1)
  have hflat : y.flatMap decomp = y :=
    listFlatMapId y (fun d hd => (goodChar_normChars (hy ▸ hd)).2.1)
  have hfilter : y.filter (fun c => !combining c) = y := by
    rw [List.filter_eq_self]
    intro d hd
    rw [(goodChar_normChars (hy ▸ hd)).2.2]
    rfl
  have hcoll : collapseWs y = y := by
    rw [collapseWs]
    exact collapseGo_eq_self y (noWsRun_normChars l)
      (fun d hd hw => ws_normChars (hy ▸ hd) hw)
  have htrim : jsTrim y = y := by
    apply jsTrim_eq_self
    · intro d hd
      rw [hy, normChars] at hd
      exact head?_jsTrim_ws hd
    · intro d hd
      rw [hy, normChars] at hd
      exact getLast?_jsTrim_ws hd
  calc normChars y = jsTrim (collapseWs y) := by
        rw [normChars, hmap, hflat, hfilter]
    _ = jsTrim y := by rw [hcoll]
    _ = y := htrim

/-- C9: the text normalization of the source is idempotent:
`normalize(normalize(x)) == normalize(x)` for every string `x`;
`normalize` lower-cases, NFD-decomposes and strips combining diacritics,
collapses whitespace runs to a single space, and trims. -/
theorem text_normalize_idempotent (x : String) :
    normalize (normalize x) = normalize x := by
  rw [normalize, normalize]
  exact congrArg String.mk (normChars_idem x.data)

end CVIA


namespace CVIA

/-! ### Ordering lemmas for `mergeAndDedupe` -/

theorem jobPairLe_trans : ∀ a b c : MatchedJob,
    jobPairLe a b → jobPairLe b c → jobPairLe a c := by
  intro a b c hab hbc
  simp only [jobPairLe, decide_eq_true_eq] at *
  rcases hab with h1 | ⟨h1, h1'⟩ <;> rcases hbc with h2 | ⟨h2, h2'⟩
  · exact Or.inl (h2.trans h1)
  · exact Or.inl (h2 ▸ h1)
  · exact Or.inl (h1 ▸ h2)
  · exact Or.inr ⟨h2.trans h1, h2'.trans h1'⟩

theorem jobPairLe_total : ∀ a b : MatchedJob, jobPairLe a b || jobPairLe b a := by
  intro a b
  simp only [jobPairLe, Bool.or_eq_true, decide_eq_true_eq]
  rcases lt_trichotomy a.publishedTs b.publishedTs with h | h | h
  · exact Or.inr (Or.inl h)
  · rcases le_total b.score a.score with hs | hs
    · exact Or.inl (Or.inr ⟨h.symm, hs⟩)
    · exact Or.inr (Or.inr ⟨h, hs⟩)
  · exact Or.inl (Or.inl h)

theorem sorted_mergeAndDedupe (l : List MatchedJob) :
    (mergeAndDedupe l).Pairwise JobOrder := by
  have h := @List.sorted_mergeSort MatchedJob jobPairLe jobPairLe_trans jobPairLe_total
    (dedupFirst l [])
  exact h.imp (fun hab => of_decide_eq_true hab)

/-! ### Structural lemmas for `dedupFirst` -/

theorem mem_dedupFirst_sub : ∀ (l : List MatchedJob) (seen : List String)
    (j : MatchedJob), j ∈ dedupFirst l seen → j ∈ l := by
  intro l
  induction l with
  | nil => intro seen j h; simp [dedupFirst] at h
  | cons x rest ih =>
    intro seen j h
    rw [dedupFirst] at h
    split at h
    · exact List.mem_cons_of_mem _ (ih seen j h)
    · split at h
      · exact List.mem_cons_of_mem _ (ih seen j h)
      · rcases List.mem_cons.mp h with h' | h'
        · exact h' ▸ List.mem_cons_self _ _
        · exact List.mem_cons_of_mem _ (ih _ j h')

theorem dedupFirst_keys_not_seen : ∀ (l : List MatchedJob) (seen : List String)
    (j : MatchedJob), j ∈ dedupFirst l seen → dedupKey j ∉ seen := by
  intro l
  induction l with
  | nil => intro seen j h; simp [dedupFirst] at h
  | cons x rest ih =>
    intro seen j h
    rw [dedupFirst] at h
    split at h
    · exact ih seen j h
    · split at h
      · exact ih seen j h
      · rcases List.mem_cons.mp h with h' | h'
        · subst h'; assumption
        · intro hc
          exact ih _ j h' (List.mem_cons_of_mem _ hc)

theorem dedupFirst_covers : ∀ (l : List MatchedJob) (seen : List String)
    (j : MatchedJob), j ∈ l → j.url ≠ "" → dedupKey j ∉ seen →
    ∃ j', j' ∈ dedupFirst l seen ∧ dedupKey j' = dedupKey j := by
  intro l
  induction l with
  | nil => intro seen j h; simp at h
  | cons x rest ih =>
    intro seen j hj hurl hseen
    rw [dedupFirst]
    rcases List.mem_cons.mp hj with h' | h'
    · subst h'
      rw [if_neg hurl]
      by_cases hk : dedupKey j ∈ seen
      · exact absurd hk hseen
      · rw [if_neg hk]
        exact ⟨j, List.mem_cons_self _ _, rfl⟩
    · split
      · exact ih seen j h' hurl hseen
      · split
        · exact ih seen j h' hurl hseen
        · by_cases hk : dedupKey j = dedupKey x
          · exact ⟨x, List.mem_cons_self _ _, hk.symm⟩
          · obtain ⟨j', hj', hk'⟩ := ih (dedupKey x :: seen) j h' hurl
              (by
                intro hc
                rcases List.mem_cons.mp hc with hc' | hc'
                · exact hk hc'
                · exact hseen hc')
            exact ⟨j', List.mem_cons_of_mem _ hj', hk'⟩

theorem dedupFirst_nodupKeys : ∀ (l : List MatchedJob) (seen : List String),
    ((dedupFirst l seen).map dedupKey).Nodup := by
  intro l
  induction l with
  | nil => intro seen; simp [dedupFirst]
  | cons x rest ih =>
    intro seen
    rw [dedupFirst]
    split
    · exact ih seen
    · split
      · exact ih seen
      · rw [List.map_cons, List.nodup_cons]
        refine ⟨?_, ih _⟩
        intro hc
        obtain ⟨j', hj', hk'⟩ := List.mem_map.mp hc
        exact dedupFirst_keys_not_seen rest _ j' hj' (hk' ▸ List.mem_cons_self _ _)

theorem dedupFirst_firstWith : ∀ (l : List MatchedJob) (seen : List String)
    (j' : MatchedJob), (∀ j ∈ l, j.url ≠ "") → j' ∈ dedupFirst l seen →
    l.find? (fun x => dedupKey x == dedupKey j') = some j' := by
  intro l
  induction l with
  | nil => intro seen j' _ h; simp [dedupFirst] at h
  | cons x rest ih =>
    intro seen j' hurl h
    rw [dedupFirst, if_neg (hurl x (List.mem_cons_self _ _))] at h
    split at h
    · have hne : dedupKey x ≠ dedupKey j' := by
        intro hc
        exact dedupFirst_keys_not_seen rest seen j' h (hc ▸ (by assumption))
      rw [List.find?_cons_of_neg _ (by simpa using hne)]
      exact ih seen j' (fun j hj => hurl j (List.mem_cons_of_mem _ hj)) h
    · rcases List.mem_cons.mp h with h' | h'
      · subst h'
        rw [List.find?_cons_of_pos _ (by simp)]
      · have hne : dedupKey x ≠ dedupKey j' := by
          intro hc
          exact dedupFirst_keys_not_seen rest _ j' h'
            (hc ▸ List.mem_cons_self _ _)
        rw [List.find?_cons_of_neg _ (by simpa using hne)]
        exact ih _ j' (fun j hj => hurl j (List.mem_cons_of_mem _ hj)) h'

theorem mem_mergeAndDedupe {j : MatchedJob} {l : List MatchedJob} :
    j ∈ mergeAndDedupe l ↔ j ∈ dedupFirst l [] := by
  rw [mergeAndDedupe]
  exact List.mem_mergeSort

end CVIA

namespace CVIA

/-! ### C6: deduplication -/

/-- C6: deduplication keys each record by
`normalize(provider + '|' + urlWithoutQueryString)` (`dedupKey`) and keeps
the first-seen record per key: every output record comes from the input,
every input record's key is represented, output keys are pairwise distinct,
and each surviving record is the first input record bearing its key.  In
particular two records with the same provider whose URLs differ only in the
query string collapse to the first of them. -/
theorem dedupe_first_seen_per_key (l : List MatchedJob)
    (hurl : ∀ j ∈ l, j.url ≠ "") :
    (∀ j ∈ mergeAndDedupe l, j ∈ l) ∧
    (∀ j ∈ l, ∃ j', j' ∈ mergeAndDedupe l ∧ dedupKey j' = dedupKey j) ∧
    ((mergeAndDedupe l).map dedupKey).Nodup ∧
    (∀ j' ∈ mergeAndDedupe l,
      l.find? (fun x => dedupKey x == dedupKey j') = some j') := by
  refine ⟨?_, ?_, ?_, ?_⟩
  · intro j hj
    exact mem_dedupFirst_sub l [] j (mem_mergeAndDedupe.mp hj)
  · intro j hj
    obtain ⟨j', hj', hk⟩ := dedupFirst_covers l [] j hj (hurl j hj) (by simp)
    exact ⟨j', mem_mergeAndDedupe.mpr hj', hk⟩
  · have hperm : List.Perm ((mergeAndDedupe l).map dedupKey)
        ((dedupFirst l []).map dedupKey) :=
      (List.mergeSort_perm (dedupFirst l []) jobPairLe).map dedupKey
    exact hperm.nodup_iff.mpr (dedupFirst_nodupKeys l [])
  · intro j' hj'
    exact dedupFirst_firstWith l [] j' hurl (mem_mergeAndDedupe.mp hj')

unseal List.merge List.mergeSort in
theorem dedupe_first_seen_per_key_witness :
    (∀ j ∈ [(⟨"R1", "c", "l", "Indeed", "https://x/job?ref=1", [], 0, "d", 0⟩ : MatchedJob),
            ⟨"R2", "c", "l", "Indeed", "https://x/job?ref=2", [], 0, "d", 0⟩], j.url ≠ "") ∧
    ((∀ j ∈ mergeAndDedupe [(⟨"R1", "c", "l", "Indeed", "https://x/job?ref=1", [], 0, "d", 0⟩ : MatchedJob),
            ⟨"R2", "c", "l", "Indeed", "https://x/job?ref=2", [], 0, "d", 0⟩], j ∈ [(⟨"R1", "c", "l", "Indeed", "https://x/job?ref=1", [], 0, "d", 0⟩ : MatchedJob),
            ⟨"R2", "c", "l", "Indeed", "https://x/job?ref=2", [], 0, "d", 0⟩]) ∧
    (∀ j ∈ [(⟨"R1", "c", "l", "Indeed", "https://x/job?ref=1", [], 0, "d", 0⟩ : MatchedJob),
            ⟨"R2", "c", "l", "Indeed", "https://x/job?ref=2", [], 0, "d", 0⟩],
      ∃ j', j' ∈ mergeAndDedupe [(⟨"R1", "c", "l", "Indeed", "https://x/job?ref=1", [], 0, "d", 0⟩ : MatchedJob),
            ⟨"R2", "c", "l", "Indeed", "https://x/job?ref=2", [], 0, "d", 0⟩] ∧ dedupKey j' = dedupKey j) ∧
    ((mergeAndDedupe [(⟨"R1", "c", "l", "Indeed", "https://x/job?ref=1", [], 0, "d", 0⟩ : MatchedJob),
            ⟨"R2", "c", "l", "Indeed", "https://x/job?ref=2", [], 0, "d", 0⟩]).map dedupKey).Nodup ∧
    (∀ j' ∈ mergeAndDedupe [(⟨"R1", "c", "l", "Indeed", "https://x/job?ref=1", [], 0, "d", 0⟩ : MatchedJob),
            ⟨"R2", "c", "l", "Indeed", "https://x/job?ref=2", [], 0, "d", 0⟩],
      [(⟨"R1", "c", "l", "Indeed", "https://x/job?ref=1", [], 0, "d", 0⟩ : MatchedJob),
            ⟨"R2", "c", "l", "Indeed", "https://x/job?ref=2", [], 0, "d", 0⟩].find?
        (fun x => dedupKey x == dedupKey j') = some j')) :=
  ⟨by decide, dedupe_first_seen_per_key _ (by decide)⟩

/-! ### C2: ordering of the returned list -/

unseal List.merge List.mergeSort in
/-- C2 is false as stated: `mergeAndDedupe`, which produces the returned
ordering, is not sorted by composite score descending — on two records with
unequal scores, the lower-scoring but more recent record
(`publishedTs = 100`, score 5) is returned before the higher-scoring one
(`publishedTs = 0`, score 10). -/
theorem retrieval_sort_counterexample :
    mergeAndDedupe [(⟨"A", "c", "l", "Indeed", "https://x/a", [], 5, "d", 100⟩ : MatchedJob),
        ⟨"B", "c", "l", "Indeed", "https://x/b", [], 10, "d", 0⟩] =
      [(⟨"A", "c", "l", "Indeed", "https://x/a", [], 5, "d", 100⟩ : MatchedJob),
        ⟨"B", "c", "l", "Indeed", "https://x/b", [], 10, "d", 0⟩] ∧
    ¬ (mergeAndDedupe [(⟨"A", "c", "l", "Indeed", "https://x/a", [], 5, "d", 100⟩ : MatchedJob),
        ⟨"B", "c", "l", "Indeed", "https://x/b", [], 10, "d", 0⟩]).Pairwise
      (fun x y => y.score ≤ x.score) := by
  constructor
  · decide
  · decide

/-- C2 (amended): the ordered sequence returned by the retrieval call is
sorted by recency (`publishedTs`) descending as the primary key, and only
records with equal timestamps are ordered among themselves by composite
score descending as the secondary key (`JobOrder`); the same holds for
every `mergeAndDedupe` result. -/
theorem retrieval_sort_order :
    (∀ (env : ProviderEnv) (now : Int) (keywords : List String)
      (location country desiredRole : Option String)
      (experience : Option ExperienceProfile),
        ((searchPublicJobs env now keywords location country desiredRole
          experience).jobs).Pairwise JobOrder) ∧
    (∀ l : List MatchedJob, (mergeAndDedupe l).Pairwise JobOrder) := by
  constructor
  · intro env now keywords location country desiredRole experience
    exact ((sorted_mergeAndDedupe _).sublist (List.take_sublist _ _))
  · exact sorted_mergeAndDedupe

end CVIA

namespace CVIA

/-! ### C3: rank of the fallback placeholders -/

unseal List.merge List.mergeSort in
/-- C3 is false as stated: in a retrieval whose output contains both the
deterministic fallback placeholders and a genuine provider-sourced record
(an Indeed record with unknown publish date and composite score 0), every
placeholder (score 18, `publishedTs` 0) is returned BEFORE the genuine
record, not after it — the output is exactly the placeholder block followed
by the genuine record. -/
theorem fallback_rank_counterexample :
    (searchPublicJobs ⟨"", "", none, none,
        [[⟨"Desarrollador", "X", "Y", "Indeed", "https://pe.indeed.com/viewjob",
          [], 0, "Sin fecha", 0⟩]]⟩
      0 ["python"] none none none none).jobs =
      buildPortalSearchFallback ["python"] "Peru" "" ++
        [⟨"Desarrollador", "X", "Y", "Indeed", "https://pe.indeed.com/viewjob",
          [], 0, "Sin fecha", 0⟩] ∧
    buildPortalSearchFallback ["python"] "Peru" "" ≠ [] := by
  constructor
  · decide
  · decide

/-- C3 (amended): a fallback placeholder always carries `publishedTs = 0`
and score 18, and whenever one record precedes another in a
`mergeAndDedupe` result the later one has an equal-or-older timestamp (with
scores descending on timestamp ties); hence a placeholder ranks below every
genuine record with a positive timestamp, but may rank above a genuine
record whose timestamp is also 0 and whose score is below 18. -/
theorem fallback_ranks_below_recent (l pre mid post : List MatchedJob)
    (a b : MatchedJob) (h : mergeAndDedupe l = pre ++ a :: (mid ++ b :: post)) :
    JobOrder a b ∧
    (∀ (kws : List String) (ctry city : String),
      ∀ fb ∈ buildPortalSearchFallback kws ctry city,
        fb.publishedTs = 0 ∧ fb.score = 18) := by
  constructor
  · have hs := sorted_mergeAndDedupe l
    rw [h] at hs
    have h2 := (List.pairwise_append.mp hs).2.1
    have h3 := (List.pairwise_cons.mp h2).1
    exact h3 b (List.mem_append_right _ (List.mem_cons_self _ _))
  · intro kws ctry city fb hfb
    rw [buildPortalSearchFallback] at hfb
    obtain ⟨seed, _, hfb2⟩ := List.mem_flatMap.mp hfb
    obtain ⟨source, _, hfb3⟩ := List.mem_map.mp hfb2
    subst hfb3
    exact ⟨rfl, rfl⟩

unseal List.merge List.mergeSort in
theorem fallback_ranks_below_recent_witness :
    (mergeAndDedupe [(⟨"G", "c", "l", "Indeed", "https://x/g", [], 3, "d", 50⟩ : MatchedJob),
        ⟨"F", "c", "l", "Computrabajo", "https://x/f", [], 18, "d", 0⟩] =
      [] ++ (⟨"G", "c", "l", "Indeed", "https://x/g", [], 3, "d", 50⟩ : MatchedJob) ::
        ([] ++ (⟨"F", "c", "l", "Computrabajo", "https://x/f", [], 18, "d", 0⟩ : MatchedJob) :: [])) ∧
    (JobOrder ⟨"G", "c", "l", "Indeed", "https://x/g", [], 3, "d", 50⟩
        ⟨"F", "c", "l", "Computrabajo", "https://x/f", [], 18, "d", 0⟩ ∧
      (∀ (kws : List String) (ctry city : String),
        ∀ fb ∈ buildPortalSearchFallback kws ctry city,
          fb.publishedTs = 0 ∧ fb.score = 18)) :=
  ⟨by decide,
    fallback_ranks_below_recent
      [(⟨"G", "c", "l", "Indeed", "https://x/g", [], 3, "d", 50⟩ : MatchedJob),
        ⟨"F", "c", "l", "Computrabajo", "https://x/f", [], 18, "d", 0⟩]
      [] [] [] _ _ (by decide)⟩

/-! ### C7: experience-level fit for mid-level profiles -/

/-- C7 is false as stated: a query profile with experience level `mid` but
`prefersInternships = true` (a combination `inferExperienceProfile` can
produce, since the internship preference is taken from the CV insights
independently of the level) receives the entry-level bonus 14, not 0, on a
record containing an entry-level token. -/
theorem experience_mid_counterexample :
    scoreByExperience "practicante de datos" (some ⟨4, Level.mid, true, []⟩) = 14 ∧
    scoreByExperience "practicante de datos" (some ⟨4, Level.mid, true, []⟩) ≠ 0 := by
  constructor
  · decide
  · decide

/-- C7 (amended): for every record text and every query profile whose
experience level is `mid` and which does not prefer internships, the
experience-level-fit term of the composite score is exactly 0, regardless
of entry-level or senior tokens in the record text. -/
theorem experience_mid_neutral (haystack : String) (e : ExperienceProfile)
    (hmid : e.level = Level.mid) (hpref : e.prefersInternships = false) :
    scoreByExperience haystack (some e) = 0 := by
  rw [scoreByExperience]
  simp only [hpref, hmid, Bool.false_eq_true, if_false, reduceCtorEq]

theorem experience_mid_neutral_witness :
    ((⟨4, Level.mid, false, []⟩ : ExperienceProfile).level = Level.mid ∧
      (⟨4, Level.mid, false, []⟩ : ExperienceProfile).prefersInternships = false) ∧
    scoreByExperience "senior lead practicante" (some ⟨4, Level.mid, false, []⟩) = 0 :=
  ⟨⟨rfl, rfl⟩, experience_mid_neutral _ _ rfl rfl⟩

end CVIA


namespace CVIA

/-! ### Association-list lemmas for the weight store -/

theorem aLookup_aSet_self {α : Type} : ∀ (m : List (String × α)) (k : String) (v : α),
    aLookup (aSet m k v) k = some v := by
  intro m
  induction m with
  | nil => intro k v; simp [aSet, aLookup]
  | cons p rest ih =>
    intro k v
    rw [aSet]
    split
    · rw [aLookup, if_pos rfl]
    · rw [aLookup]
      split
      · rename_i h1 h2
        exact absurd h2 h1
      · exact ih k v

theorem aLookup_aSet_ne {α : Type} : ∀ (m : List (String × α)) (k k' : String) (v : α),
    k' ≠ k → aLookup (aSet m k v) k' = aLookup m k' := by
  intro m
  induction m with
  | nil =>
    intro k k' v h
    simp only [aSet, aLookup]
    rw [if_neg (fun hc => h hc.symm)]
  | cons p rest ih =>
    intro k k' v h
    cases p with
    | mk pk pv =>
      rw [aSet]
      by_cases hp : pk = k
      · rw [if_pos hp]
        simp only [aLookup]
        rw [if_neg (fun hc => h hc.symm), if_neg (by rw [hp]; exact fun hc => h hc.symm)]
      · rw [if_neg hp]
        simp only [aLookup]
        by_cases hp' : pk = k'
        · rw [if_pos hp', if_pos hp']
        · rw [if_neg hp', if_neg hp']
          exact ih k k' v h

theorem mem_aSet {α : Type} : ∀ (m : List (String × α)) (k : String) (v : α)
    (p : String × α), p ∈ aSet m k v → p = (k, v) ∨ p ∈ m := by
  intro m
  induction m with
  | nil => intro k v p h; simp [aSet] at h; exact Or.inl h
  | cons q rest ih =>
    intro k v p h
    rw [aSet] at h
    split at h
    · rcases List.mem_cons.mp h with h' | h'
      · exact Or.inl h'
      · exact Or.inr (List.mem_cons_of_mem _ h')
    · rcases List.mem_cons.mp h with h' | h'
      · exact Or.inr (h' ▸ List.mem_cons_self _ _)
      · rcases ih k v p h' with h'' | h''
        · exact Or.inl h''
        · exact Or.inr (List.mem_cons_of_mem _ h'')

theorem aLookup_mem {α : Type} : ∀ (m : List (String × α)) (k : String) (v : α),
    aLookup m k = some v → (k, v) ∈ m := by
  intro m
  induction m with
  | nil => intro k v h; simp [aLookup] at h
  | cons p rest ih =>
    intro k v h
    cases p with
    | mk pk pv =>
      rw [aLookup] at h
      by_cases hk : pk = k
      · rw [if_pos hk] at h
        cases h
        subst hk
        exact List.mem_cons_self _ _
      · rw [if_neg hk] at h
        exact List.mem_cons_of_mem _ (ih k v h)

/-! ### Cap and monotonicity invariants -/

/-- Every stored weight is at most `c`. -/
def capsLe (m : List (String × ℚ)) (c : ℚ) : Prop := ∀ p ∈ m, p.2 ≤ c

/-- Every stored weight survives with an equal or larger value. -/
def leW (m m' : List (String × ℚ)) : Prop :=
  ∀ k v, aLookup m k = some v → ∃ v', aLookup m' k = some v' ∧ v ≤ v'

theorem leW_refl (m : List (String × ℚ)) : leW m m :=
  fun _ v h => ⟨v, h, le_refl v⟩

theorem leW_trans {m₁ m₂ m₃ : List (String × ℚ)} (h1 : leW m₁ m₂) (h2 : leW m₂ m₃) :
    leW m₁ m₃ := by
  intro k v h
  obtain ⟨v', hv', hle⟩ := h1 k v h
  obtain ⟨v'', hv'', hle'⟩ := h2 k v' hv'
  exact ⟨v'', hv'', hle.trans hle'⟩

theorem capsLe_aSet {m : List (String × ℚ)} {c v : ℚ} {k : String}
    (h : capsLe m c) (hv : v ≤ c) : capsLe (aSet m k v) c := by
  intro p hp
  rcases mem_aSet m k v p hp with h' | h'
  · rw [h']
    exact hv
  · exact h p h'

theorem leW_aSet {m : List (String × ℚ)} {k : String} {v : ℚ}
    (h : ∀ v₀, aLookup m k = some v₀ → v₀ ≤ v) : leW m (aSet m k v) := by
  intro k' v₀ h₀
  by_cases hk : k' = k
  · subst hk
    exact ⟨v, aLookup_aSet_self m k' v, h v₀ h₀⟩
  · exact ⟨v₀, (aLookup_aSet_ne m k k' v hk).trans h₀, le_refl v₀⟩

theorem applyKeyword_step (top : List MatchedJob) (m : List (String × ℚ))
    (kw : String) (h6 : capsLe m 6) :
    capsLe (applyKeyword top m kw) 6 ∧ leW m (applyKeyword top m kw) := by
  rw [applyKeyword]
  split
  · constructor
    · exact capsLe_aSet h6 (min_le_right _ 6)
    · apply leW_aSet
      intro v₀ h₀
      apply le_min
      · rw [getW, h₀, Option.getD_some]
        have : (0:ℚ) ≤ ((top.filter (fun job =>
            jsIncludes (learnHaystack job) kw)).length : ℚ) * (1/5) := by positivity
        linarith
      · exact h6 _ (aLookup_mem m kw v₀ h₀)
  · exact ⟨h6, leW_refl m⟩

theorem foldl_applyKeyword (top : List MatchedJob) :
    ∀ (ks : List String) (m : List (String × ℚ)), capsLe m 6 →
    capsLe (ks.foldl (applyKeyword top) m) 6 ∧ leW m (ks.foldl (applyKeyword top) m) := by
  intro ks
  induction ks with
  | nil => intro m h6; exact ⟨h6, leW_refl m⟩
  | cons k rest ih =>
    intro m h6
    rw [List.foldl_cons]
    obtain ⟨hc, hl⟩ := applyKeyword_step top m k h6
    obtain ⟨hc', hl'⟩ := ih _ hc
    exact ⟨hc', leW_trans hl hl'⟩

theorem applySource_step (m : List (String × ℚ)) (p : Nat × MatchedJob)
    (h8 : capsLe m 8) :
    capsLe (applySource m p) 8 ∧ leW m (applySource m p) := by
  rw [applySource]
  split
  · exact ⟨h8, leW_refl m⟩
  · constructor
    · exact capsLe_aSet h8 (min_le_right _ 8)
    · apply leW_aSet
      intro v₀ h₀
      apply le_min
      · rw [getW, h₀, Option.getD_some]
        have : (1/5 : ℚ) ≤ max ((6/5 : ℚ) - (p.1 : ℚ) * (1/20)) (1/5) := le_max_right _ _
        linarith
      · exact h8 _ (aLookup_mem m _ v₀ h₀)

theorem foldl_applySource :
    ∀ (ps : List (Nat × MatchedJob)) (m : List (String × ℚ)), capsLe m 8 →
    capsLe (ps.foldl applySource m) 8 ∧ leW m (ps.foldl applySource m) := by
  intro ps
  induction ps with
  | nil => intro m h8; exact ⟨h8, leW_refl m⟩
  | cons p rest ih =>
    intro m h8
    rw [List.foldl_cons]
    obtain ⟨hc, hl⟩ := applySource_step m p h8
    obtain ⟨hc', hl'⟩ := ih _ hc
    exact ⟨hc', leW_trans hl hl'⟩

/-- The bucket invariant: keyword weights at most 6, source weights at most 8. -/
def capsBucket (b : MemoryBucket) : Prop :=
  capsLe b.keywordWeights 6 ∧ capsLe b.sourceWeights 8

/-- The store invariant. -/
def capsDb (db : MemoryDb) : Prop := ∀ p ∈ db, capsBucket p.2

/-- Bucket-wise monotonicity of the stored weights. -/
def bucketLe (b b' : MemoryBucket) : Prop :=
  leW b.keywordWeights b'.keywordWeights ∧ leW b.sourceWeights b'.sourceWeights

/-- Store-wise monotonicity: every existing bucket persists and none of its
weight entries decreases. -/
def dbLe (db db' : MemoryDb) : Prop :=
  ∀ k b, aLookup db k = some b → ∃ b', aLookup db' k = some b' ∧ bucketLe b b'

theorem dbLe_refl (db : MemoryDb) : dbLe db db :=
  fun _ b h => ⟨b, h, leW_refl _, leW_refl _⟩

theorem dbLe_trans {d₁ d₂ d₃ : MemoryDb} (h1 : dbLe d₁ d₂) (h2 : dbLe d₂ d₃) :
    dbLe d₁ d₃ := by
  intro k b h
  obtain ⟨b', hb', hle⟩ := h1 k b h
  obtain ⟨b'', hb'', hle'⟩ := h2 k b' hb'
  exact ⟨b'', hb'', leW_trans hle.1 hle'.1, leW_trans hle.2 hle'.2⟩

theorem learn_caps {db : MemoryDb} (c lv : String) (kws : List String)
    (jobs : List MatchedJob) (now : String) (h : capsDb db) :
    capsDb (learnFromResults db c lv kws jobs now) := by
  rw [learnFromResults]
  split
  · exact h
  · intro p hp
    have hbase : capsBucket ((aLookup db (buildBucketKey c lv)).getD ⟨[], [], 0, now⟩) := by
      cases hb : aLookup db (buildBucketKey c lv) with
      | none =>
        constructor
        · intro q hq; simp at hq
        · intro q hq; simp at hq
      | some b =>
        rw [Option.getD_some]
        exact h _ (aLookup_mem db _ b hb)
    rcases mem_aSet db _ _ p hp with h' | h'
    · rw [h']
      constructor
      · exact (foldl_applyKeyword (jobs.take 20) _ _ hbase.1).1
      · exact (foldl_applySource _ _ hbase.2).1
    · exact h p h'

theorem learn_dbLe {db : MemoryDb} (c lv : String) (kws : List String)
    (jobs : List MatchedJob) (now : String) (h : capsDb db) :
    dbLe db (learnFromResults db c lv kws jobs now) := by
  rw [learnFromResults]
  split
  · exact dbLe_refl db
  · intro k b hb
    by_cases hk : k = buildBucketKey c lv
    · rw [hk] at hb ⊢
      refine ⟨_, aLookup_aSet_self db _ _, ?_, ?_⟩
      · rw [hb, Option.getD_some]
        exact (foldl_applyKeyword (jobs.take 20) _ b.keywordWeights
          (h _ (aLookup_mem db _ b hb)).1).2
      · rw [hb, Option.getD_some]
        exact (foldl_applySource _ b.sourceWeights
          (h _ (aLookup_mem db _ b hb)).2).2
    · exact ⟨b, (aLookup_aSet_ne db _ k _ hk).trans hb, leW_refl _, leW_refl _⟩

/-- C4: starting from any store satisfying the caps invariant (in particular
the empty store the service creates), after every finite sequence of
`learnFromResults` calls with arbitrary arguments every keyword weight is at
most 6.0 and every source weight is at most 8.0, and no existing weight
entry ever decreases (every bucket and entry persists with an
equal-or-larger value). -/
theorem weight_caps_and_monotone (db : MemoryDb) (calls : List LearnCall)
    (h : capsDb db) :
    capsDb (runLearn db calls) ∧ dbLe db (runLearn db calls) := by
  induction calls generalizing db with
  | nil => exact ⟨h, dbLe_refl db⟩
  | cons call rest ih =>
    rw [runLearn, List.foldl_cons]
    have h1 := learn_caps call.country call.level call.searchedKeywords
      call.jobs call.now h
    have h2 := learn_dbLe call.country call.level call.searchedKeywords
      call.jobs call.now h
    obtain ⟨hc, hl⟩ := ih _ h1

    exact ⟨hc, dbLe_trans h2 hl⟩

theorem weight_caps_and_monotone_witness :
    capsDb [] ∧
    (capsDb (runLearn [] [⟨"Peru", "junior", ["python"],
        [⟨"Python Dev", "c", "Lima", "Indeed", "https://x/a", [], 0, "d", 0⟩], "t"⟩]) ∧
      dbLe [] (runLearn [] [⟨"Peru", "junior", ["python"],
        [⟨"Python Dev", "c", "Lima", "Indeed", "https://x/a", [], 0, "d", 0⟩], "t"⟩])) :=
  ⟨fun p hp => absurd hp (List.not_mem_nil p),
    weight_caps_and_monotone [] _ (fun p hp => absurd hp (List.not_mem_nil p))⟩

/-- C8: a `learnFromResults` call whose `topResults` list is empty or whose
`searchedKeywords` list is empty leaves the persistent store completely
unchanged — no bucket is created or modified, `updates` and `updatedAt`
included. -/
theorem learn_noop_on_empty (db : MemoryDb) (c lv : String) (kws : List String)
    (jobs : List MatchedJob) (now : String) (h : jobs = [] ∨ kws = []) :
    learnFromResults db c lv kws jobs now = db := by
  rw [learnFromResults, if_pos h]

theorem learn_noop_on_empty_witness :
    (([] : List MatchedJob) = [] ∨ (["python"] : List String) = []) ∧
    learnFromResults [("peru|junior", ⟨[("python", 2)], [], 3, "t0"⟩)]
      "Peru" "junior" ["python"] [] "t1" =
      [("peru|junior", ⟨[("python", 2)], [], 3, "t0"⟩)] :=
  ⟨Or.inl rfl, learn_noop_on_empty _ "Peru" "junior" ["python"] [] "t1" (Or.inl rfl)⟩

/-- C10: a `learnFromResults` call with non-empty arguments touches at most
the single bucket keyed `buildBucketKey country level` (that is,
`normalize(country)+'|'+normalize(level)` with `'global'`/`'unknown'`
fallbacks): the stored value of every other key is unchanged. -/
theorem learn_frame (db : MemoryDb) (c lv : String) (kws : List String)
    (jobs : List MatchedJob) (now : String) (k : String)
    (h : k ≠ buildBucketKey c lv) :
    aLookup (learnFromResults db c lv kws jobs now) k = aLookup db k := by
  rw [learnFromResults]
  split
  · rfl
  · exact aLookup_aSet_ne db _ k _ h

theorem learn_frame_witness :
    ("mexico|senior" ≠ buildBucketKey "Peru" "junior") ∧
    aLookup (learnFromResults [("mexico|senior", ⟨[], [("indeed", 1)], 1, "t0"⟩)]
        "Peru" "junior" ["python"]
        [⟨"Python Dev", "c", "Lima", "Indeed", "https://x/a", [], 0, "d", 0⟩] "t1")
      "mexico|senior" =
      aLookup [("mexico|senior", ⟨[], [("indeed", 1)], 1, "t0"⟩)] "mexico|senior" :=
  ⟨by decide, learn_frame _ "Peru" "junior" _ _ "t1" _ (by decide)⟩

end CVIA

namespace CVIA

/-! ### C5: graceful degradation -/

theorem mergeAndDedupe_nil : mergeAndDedupe [] = [] := by
  rw [mergeAndDedupe]
  exact List.mergeSort_nil

theorem tsOutcome_degraded (key : String) (live : Option (List MatchedJob))
    (h : key = "" ∨ live = none ∨ live = some []) :
    (theirStackOutcome key live).1 = [] ∧
    ((theirStackOutcome key live).2.enabled = false ∨
      (theirStackOutcome key live).2.success = false) := by
  by_cases hk : key = ""
  · rw [theirStackOutcome.eq_def, if_pos hk]
    exact ⟨rfl, Or.inl rfl⟩
  · rcases h with h | h | h
    · exact absurd h hk
    · rw [theirStackOutcome.eq_def, if_neg hk, h]
      exact ⟨rfl, Or.inr rfl⟩
    · rw [theirStackOutcome.eq_def, if_neg hk, h]
      refine ⟨?_, Or.inr ?_⟩ <;> simp [mergeAndDedupe_nil]

theorem csOutcome_degraded (key : String) (live : Option (List MatchedJob))
    (h : key = "" ∨ live = none ∨ live = some []) :
    (coreSignalOutcome key live).1 = [] ∧
    ((coreSignalOutcome key live).2.enabled = false ∨
      (coreSignalOutcome key live).2.success = false) := by
  by_cases hk : key = ""
  · rw [coreSignalOutcome.eq_def, if_pos hk]
    exact ⟨rfl, Or.inl rfl⟩
  · rcases h with h | h | h
    · exact absurd h hk
    · rw [coreSignalOutcome.eq_def, if_neg hk, h]
      exact ⟨rfl, Or.inr rfl⟩
    · rw [coreSignalOutcome.eq_def, if_neg hk, h]
      refine ⟨?_, Or.inr ?_⟩ <;> simp [mergeAndDedupe_nil]

theorem scraped_nil (qs : List (List MatchedJob)) (h : ∀ q ∈ qs, q = []) :
    (qs.map (fun q => q.take 14)).flatten = [] := by
  induction qs with
  | nil => rfl
  | cons q rest ih =>
    rw [List.map_cons, List.flatten_cons, h q (List.mem_cons_self _ _)]
    exact ih (fun q' hq' => h q' (List.mem_cons_of_mem _ hq'))

theorem dedupFirst_ne_nil : ∀ l : List MatchedJob,
    (∃ j ∈ l, j.url ≠ "") → dedupFirst l [] ≠ [] := by
  intro l
  induction l with
  | nil => intro h; obtain ⟨j, hj, _⟩ := h; simp at hj
  | cons x rest ih =>
    intro h
    rw [dedupFirst]
    by_cases hx : x.url = ""
    · rw [if_pos hx]
      apply ih
      obtain ⟨j, hj, hurl⟩ := h
      rcases List.mem_cons.mp hj with h' | h'
      · exact absurd (h' ▸ hx) hurl
      · exact ⟨j, h', hurl⟩
    · rw [if_neg hx, if_neg (by simp)]
      simp

theorem mergeAndDedupe_ne_nil (l : List MatchedJob) (h : ∃ j ∈ l, j.url ≠ "") :
    mergeAndDedupe l ≠ [] := by
  rw [mergeAndDedupe]
  intro hc
  have hlen := congrArg List.length hc
  rw [List.length_mergeSort] at hlen
  exact dedupFirst_ne_nil l h (List.length_eq_zero.mp hlen)

theorem str_append_ne (s t : String) (h : s ≠ "") : s ++ t ≠ "" := by
  intro hc
  have h2 := congrArg String.data hc
  rw [String.data_append] at h2
  exact h (String.ext (List.append_eq_nil.mp h2).1)

theorem buildSourceSearchUrl_ne (source keyword countryText cityOrRegion : String) :
    buildSourceSearchUrl source keyword countryText cityOrRegion ≠ "" := by
  rw [buildSourceSearchUrl]
  split_ifs <;> (repeat apply str_append_ne) <;> decide

theorem fallback_ne_nil (kws : List String) (ctry city : String) :
    buildPortalSearchFallback kws ctry city ≠ [] := by
  rw [buildPortalSearchFallback]
  intro hc
  have h2 := List.flatMap_eq_nil_iff.mp hc
  cases kws with
  | nil =>
    have := h2 "practicante" (by simp)
    simp at this
  | cons a t =>
    have hmem : a ∈ (if (a :: t) ≠ [] then (a :: t).take 20
        else ["practicante", "analista", "asistente", "python"]) := by
      rw [if_pos (by simp)]
      have h3 : (a :: t).take 20 = a :: t.take 19 := rfl
      rw [h3]
      exact List.mem_cons_self _ _
    have := h2 a hmem
    simp at this

theorem fallback_urls (kws : List String) (ctry city : String) :
    ∀ j ∈ buildPortalSearchFallback kws ctry city, j.url ≠ "" := by
  intro j hj
  rw [buildPortalSearchFallback] at hj
  obtain ⟨seed, _, hj2⟩ := List.mem_flatMap.mp hj
  obtain ⟨source, _, hj3⟩ := List.mem_map.mp hj2
  subst hj3
  exact buildSourceSearchUrl_ne source seed ctry city

theorem take_ne_nil {l : List MatchedJob} {n : Nat} (h : l ≠ []) (hn : 0 < n) :
    l.take n ≠ [] := by
  intro hc
  rcases List.take_eq_nil_iff.mp hc with h' | h'
  · omega
  · exact h h'

end CVIA

namespace CVIA

/-- C5: when every live provider is disabled (missing credential) or fails
(no records delivered), `searchPublicJobs` still returns a non-empty jobs
list — the deterministic fallback, which needs no I/O — together with a
provider-status list in which every entry has `enabled:false` or
`success:false`. -/
theorem graceful_degradation (env : ProviderEnv) (now : Int)
    (keywords : List String) (location country desiredRole : Option String)
    (experience : Option ExperienceProfile)
    (hts : env.theirStackKey = "" ∨ env.theirStackLive = none ∨
      env.theirStackLive = some [])
    (hcs : env.coreSignalKey = "" ∨ env.coreSignalLive = none ∨
      env.coreSignalLive = some [])
    (hbq : ∀ q ∈ env.byQuery, q = []) :
    (searchPublicJobs env now keywords location country desiredRole
      experience).jobs ≠ [] ∧
    (∀ st ∈ (searchPublicJobs env now keywords location country desiredRole
      experience).providers, st.enabled = false ∨ st.success = false) := by
  obtain ⟨hts1, hts2⟩ := tsOutcome_degraded _ _ hts
  obtain ⟨hcs1, hcs2⟩ := csOutcome_degraded _ _ hcs
  have hsc := scraped_nil env.byQuery hbq
  constructor
  · simp only [searchPublicJobs, hts1, hcs1, hsc, List.append_nil, List.nil_append,
      mergeAndDedupe_nil, List.filter_nil, ite_self, List.map_nil,
      List.mergeSort_nil, List.take_nil]
    apply take_ne_nil ?_ (by omega)
    apply mergeAndDedupe_ne_nil
    obtain ⟨j, hj⟩ := List.exists_mem_of_ne_nil _
      (fallback_ne_nil (enrichKeywordsWithExperience (cleanKeywords keywords)
        experience) (resolveCountry country location) (jsTrimStr (location.getD "")))
    exact ⟨j, hj, fallback_urls _ _ _ j hj⟩
  · intro st hst
    simp only [searchPublicJobs, hsc, List.length_nil, List.mem_cons,
      List.mem_singleton] at hst
    rcases hst with h | h | h | h
    · exact h ▸ hts2
    · exact h ▸ hcs2
    · right
      rw [h]
      decide
    · exact absurd h (List.not_mem_nil st)

theorem graceful_degradation_witness :
    ((⟨"", "", none, none, []⟩ : ProviderEnv).theirStackKey = "" ∨
      (⟨"", "", none, none, []⟩ : ProviderEnv).theirStackLive = none ∨
      (⟨"", "", none, none, []⟩ : ProviderEnv).theirStackLive = some []) ∧
    ((⟨"", "", none, none, []⟩ : ProviderEnv).coreSignalKey = "" ∨
      (⟨"", "", none, none, []⟩ : ProviderEnv).coreSignalLive = none ∨
      (⟨"", "", none, none, []⟩ : ProviderEnv).coreSignalLive = some []) ∧
    (∀ q ∈ (⟨"", "", none, none, []⟩ : ProviderEnv).byQuery, q = []) ∧
    ((searchPublicJobs ⟨"", "", none, none, []⟩ 0 [] none none none none).jobs ≠ [] ∧
      (∀ st ∈ (searchPublicJobs ⟨"", "", none, none, []⟩ 0 [] none none none
        none).providers, st.enabled = false ∨ st.success = false)) :=
  ⟨Or.inl rfl, Or.inl rfl, fun q hq => absurd hq (List.not_mem_nil q),
    graceful_degradation ⟨"", "", none, none, []⟩ 0 [] none none none none
      (Or.inl rfl) (Or.inl rfl) (fun q hq => absurd hq (List.not_mem_nil q))⟩

end CVIA

namespace CVIA

/-! ### C1: the feedback boost -/

theorem foldl_getW_nil : ∀ (ks : List String) (acc : ℚ),
    ks.foldl (fun a k => a + getW [] k) acc = acc := by
  intro ks
  induction ks with
  | nil => intro acc; rfl
  | cons k rest ih =>
    intro acc
    rw [List.foldl_cons]
    have : getW [] k = 0 := rfl
    rw [this, add_zero]
    exact ih acc

theorem feedbackBoost_empty (job : MatchedJob) (keywords : List String) :
    feedbackBoost ⟨[], []⟩ job keywords = 0 := by
  rw [feedbackBoost]
  rw [foldl_getW_nil]
  have h1 : getW [] (normalize job.source) = 0 := rfl
  rw [h1]
  rw [min_eq_left (by norm_num), min_eq_left (by norm_num), add_zero]

/-- C1 (spec-modelled): in the learning-aware retrieval, the composite score
of a record is the checked-in `scoreJob` total plus the bucket's feedback
boost — the learned keyword weight summed over the query keywords matching
the record and the learned source weight of the record's provider, each
independently capped — so two retrievals differing only in the stored
feedback weights assign different scores whenever a weight applies (the
boost is positive). -/
theorem feedback_boost_changes_score (job : MatchedJob) (keywords : List String)
    (countryText cityOrRegion : String) (experience : Option ExperienceProfile)
    (now : Int) (p : LearningProfile)
    (hpos : 0 < feedbackBoost p job keywords) :
    scoreJobWithProfile job keywords countryText cityOrRegion experience now
        (some p) =
      ((scoreJob job keywords countryText cityOrRegion experience now : Int) : ℚ) +
        feedbackBoost p job keywords ∧
    scoreJobWithProfile job keywords countryText cityOrRegion experience now
        (some p) ≠
      scoreJobWithProfile job keywords countryText cityOrRegion experience now
        (some ⟨[], []⟩) := by
  refine ⟨rfl, ?_⟩
  show (_ : ℚ) + feedbackBoost p job keywords ≠ _ + feedbackBoost ⟨[], []⟩ job keywords
  rw [feedbackBoost_empty]
  intro hc
  have h0 : feedbackBoost p job keywords = 0 := by
    have := add_left_cancel hc
    simpa using this
  exact absurd h0 (ne_of_gt hpos)

theorem feedback_boost_changes_score_witness :
    0 < feedbackBoost ⟨[("python", 2)], []⟩
      ⟨"Python Developer", "Acme", "Lima", "Indeed", "https://x/a", [], 0, "d", 0⟩
      ["python"] ∧
    (scoreJobWithProfile
        ⟨"Python Developer", "Acme", "Lima", "Indeed", "https://x/a", [], 0, "d", 0⟩
        ["python"] "Peru" "" none 0 (some ⟨[("python", 2)], []⟩) =
      ((scoreJob ⟨"Python Developer", "Acme", "Lima", "Indeed", "https://x/a", [],
          0, "d", 0⟩ ["python"] "Peru" "" none 0 : Int) : ℚ) +
        feedbackBoost ⟨[("python", 2)], []⟩
          ⟨"Python Developer", "Acme", "Lima", "Indeed", "https://x/a", [], 0, "d", 0⟩
          ["python"] ∧
      scoreJobWithProfile
        ⟨"Python Developer", "Acme", "Lima", "Indeed", "https://x/a", [], 0, "d", 0⟩
        ["python"] "Peru" "" none 0 (some ⟨[("python", 2)], []⟩) ≠
      scoreJobWithProfile
        ⟨"Python Developer", "Acme", "Lima", "Indeed", "https://x/a", [], 0, "d", 0⟩
        ["python"] "Peru" "" none 0 (some ⟨[], []⟩)) := by
  have hlist : (((["python"].map normalize).filter (fun k => k ≠ "")).filter
      (fun k => jsIncludes (scoreHaystack ⟨"Python Developer", "Acme", "Lima",
        "Indeed", "https://x/a", [], 0, "d", 0⟩) k)) = ["python"] := by decide
  have hpos : 0 < feedbackBoost ⟨[("python", 2)], []⟩
      ⟨"Python Developer", "Acme", "Lima", "Indeed", "https://x/a", [], 0, "d", 0⟩
      ["python"] := by
    rw [feedbackBoost, hlist]
    have h2 : getW [("python", 2)] "python" = 2 := rfl
    have h3 : getW [] (normalize
        (⟨"Python Developer", "Acme", "Lima", "Indeed", "https://x/a", [], 0, "d", 0⟩
          : MatchedJob).source) = 0 := rfl
    rw [List.foldl_cons, List.foldl_nil, h2, h3]
    norm_num
  exact ⟨hpos, feedback_boost_changes_score _ _ "Peru" "" none 0 _ hpos⟩

end CVIA
